import Mathlib

/-!
# Verification of the rusty-bolt protocol stack

A shallow embedding of the rusty-bolt driver's three-layer protocol stack
(PackStream codec, chunked message framing, pipelined Bolt session) together
with proofs about its behaviour.

Modelling conventions:
* Bytes are `Nat` values below 256; byte strings are `List Nat`.
* A Rust `String` is modelled by its UTF-8 byte sequence (`List Nat`); the
  codec writes and reads such sequences verbatim (`read_to_string` returns
  exactly the bytes a Rust `String` produced, so byte-level equality is
  string equality).
* `f64` is modelled by its 64-bit IEEE-754 bit pattern (a `Nat` below `2^64`);
  `write_f64::<BigEndian>`/`read_f64::<BigEndian>` move exactly those eight
  bytes, so bit-pattern identity is the right notion of "bit-exact".
* `i64` is modelled by `Int`; wrapping casts (`as u8`, `as i16`, ...) become
  `Int.emod` by the corresponding power of two.
* A `HashMap<String, Value>` is modelled by its iteration sequence: the list
  of key/value pairs in the order the map yields them (the order `pack`
  serialises them and `unpack` re-inserts them).
* Fallible Rust code is wrapped in `Option`/result types; a `panic!` is
  modelled by a dedicated result constructor so it can be told apart from an
  error value that is returned to the caller.
-/

namespace RustyBolt

/-! ## Big-endian byte helpers -/

/-- Big-endian byte string of width `w` for the natural number `n`
(the low `8*w` bits of `n`, most significant byte first).  This is what
`byteorder`'s `write_uN::<BigEndian>`/`write_iN::<BigEndian>` emit: the
base-256 digits of the value's two's-complement bit pattern. -/
def beBytes : Nat → Nat → List Nat
  | 0, _ => []
  | w + 1, n => beBytes w (n / 256) ++ [n % 256]

/-- Big-endian value of a byte string (how `read_uN::<BigEndian>` folds the
bytes it has read). -/
def beVal (bs : List Nat) : Nat :=
  bs.foldl (fun acc b => 256 * acc + b) 0

theorem beBytes_length (w n : Nat) : (beBytes w n).length = w := by
  induction w generalizing n with
  | zero => rfl
  | succ w ih => simp [beBytes, ih]

theorem beVal_append_singleton (bs : List Nat) (b : Nat) :
    beVal (bs ++ [b]) = 256 * beVal bs + b := by
  simp [beVal, List.foldl_append]

theorem beVal_beBytes (w n : Nat) (h : n < 256 ^ w) :
    beVal (beBytes w n) = n := by
  induction w generalizing n with
  | zero =>
    simp only [Nat.pow_zero, Nat.lt_one_iff] at h
    simp [beBytes, beVal, h]
  | succ w ih =>
    have hdiv : n / 256 < 256 ^ w := by
      rw [Nat.div_lt_iff_lt_mul (by norm_num)]
      calc n < 256 ^ (w + 1) := h
        _ = 256 ^ w * 256 := by ring
    rw [beBytes, beVal_append_singleton, ih _ hdiv]
    omega

/-! ## PackStream encoder (src/packstream/src/pack.rs) -/

/-- `pack_integer` from `src/packstream/src/pack.rs` (lines 31-52).  The
narrowest-fits ladder: TinyInt, Int8 (`0xC8`), Int16 (`0xC9`), Int32
(`0xCA`), Int64 (`0xCB`).  `write_i8(value as i8)` emits the single byte
`value mod 2^8`; `write_iN::<BigEndian>(value as iN)` emits the `N/8`
big-endian bytes of `value mod 2^N` (the two's-complement bit pattern). -/
def pack_integer (value : Int) : List Nat :=
  if -0x10 ≤ value ∧ value < 0x80 then
    -- TINY_INT
    beBytes 1 (value % 2 ^ 8).toNat
  else if -0x80 ≤ value ∧ value < 0x80 then
    -- INT_8
    0xC8 :: beBytes 1 (value % 2 ^ 8).toNat
  else if -0x8000 ≤ value ∧ value < 0x8000 then
    -- INT_16
    0xC9 :: beBytes 2 (value % 2 ^ 16).toNat
  else if -0x80000000 ≤ value ∧ value < 0x80000000 then
    -- INT_32
    0xCA :: beBytes 4 (value % 2 ^ 32).toNat
  else
    -- INT_64
    0xCB :: beBytes 8 (value % 2 ^ 64).toNat

/-- The spec's wording: a two's-complement big-endian payload of `k` bytes
for the integer `n` is the big-endian byte string of `n mod 2^(8k)`. -/
def twosComplementBE (k : Nat) (n : Int) : List Nat :=
  beBytes k (n % 2 ^ (8 * k)).toNat

/-- C2: For every 64-bit signed integer `n`, `pack_integer` emits exactly the
narrowest representation of the spec's ladder: a single TinyInt byte if
`-16 ≤ n < 128`; else marker `0xC8` plus one byte if `-128 ≤ n < 128`; else
`0xC9` plus 2 big-endian bytes if `-32768 ≤ n < 32768`; else `0xCA` plus 4
big-endian bytes if `-2^31 ≤ n < 2^31`; else `0xCB` plus 8 big-endian bytes;
payloads are two's-complement big-endian. -/
theorem c2_integer_narrowest_fits (n : Int)
    (h₁ : -(2 ^ 63) ≤ n) (h₂ : n < 2 ^ 63) :
    pack_integer n =
      if -16 ≤ n ∧ n < 128 then twosComplementBE 1 n
      else if -128 ≤ n ∧ n < 128 then 0xC8 :: twosComplementBE 1 n
      else if -32768 ≤ n ∧ n < 32768 then 0xC9 :: twosComplementBE 2 n
      else if -(2 ^ 31) ≤ n ∧ n < 2 ^ 31 then 0xCA :: twosComplementBE 4 n
      else 0xCB :: twosComplementBE 8 n := by
  unfold pack_integer twosComplementBE
  norm_num

/-- Witness for C2 at `n = 300`: the encoding is `0xC9 0x01 0x2C`. -/
theorem c2_integer_narrowest_fits_witness :
    (-(2 ^ 63) ≤ (300 : Int) ∧ (300 : Int) < 2 ^ 63) ∧
      pack_integer 300 = [0xC9, 0x01, 0x2C] := by
  refine ⟨by decide, ?_⟩
  rw [c2_integer_narrowest_fits 300 (by decide) (by decide)]
  decide

/-! ## The PackStream value model (src/packstream/src/lib.rs, `enum Value`) -/

/-- The dynamic `Value` model of the codec.  `integer` carries an `i64`
(`Int`), `float` the 64-bit IEEE-754 bit pattern, `string` the UTF-8 bytes,
`map` the `HashMap`'s iteration sequence of key/value pairs, `struct` the
`Structure { signature, fields }` variant. -/
inductive Value where
  | null
  | boolean (x : Bool)
  | integer (x : Int)
  | float (x : Nat)
  | string (x : List Nat)
  | list (items : List Value)
  | map (entries : List (List Nat × Value))
  | struct (signature : Nat) (fields : List Value)

/-- `pack_string` from `src/packstream/src/pack.rs` (lines 59-76): a
narrowest-fits header (tiny / `0xD0` u8 / `0xD1` u16 / `0xD2` u32) followed
by the UTF-8 bytes; `panic!("String too long to pack")` (modelled as `none`)
beyond `2^32 - 1`. -/
def pack_string (value : List Nat) : Option (List Nat) :=
  if value.length < 0x10 then some ((0x80 + value.length) :: value)
  else if value.length < 0x100 then some (0xD0 :: value.length :: value)
  else if value.length < 0x10000 then some (0xD1 :: (beBytes 2 value.length ++ value))
  else if value.length < 0x100000000 then some (0xD2 :: (beBytes 4 value.length ++ value))
  else none

/-- The list header of `pack_list` (`0x90+n` / `0xD4` / `0xD5` / `0xD6`). -/
def listHeader (size : Nat) : Option (List Nat) :=
  if size < 0x10 then some [0x90 + size]
  else if size < 0x100 then some [0xD4, size]
  else if size < 0x10000 then some (0xD5 :: beBytes 2 size)
  else if size < 0x100000000 then some (0xD6 :: beBytes 4 size)
  else none

/-- The map header of `pack_map` (`0xA0+n` / `0xD8` / `0xD9` / `0xDA`). -/
def mapHeader (size : Nat) : Option (List Nat) :=
  if size < 0x10 then some [0xA0 + size]
  else if size < 0x100 then some [0xD8, size]
  else if size < 0x10000 then some (0xD9 :: beBytes 2 size)
  else if size < 0x100000000 then some (0xDA :: beBytes 4 size)
  else none

/-- The structure header of `pack_structure` (`0xB0+n` / `0xDC` / `0xDD`);
the signature byte follows the header. -/
def structHeader (size : Nat) : Option (List Nat) :=
  if size < 0x10 then some [0xB0 + size]
  else if size < 0x100 then some [0xDC, size]
  else if size < 0x10000 then some (0xDD :: beBytes 2 size)
  else none

/-- `pack_float` from `src/packstream/src/pack.rs` (lines 54-57): the marker
`0xC1` followed by the eight IEEE-754 big-endian bytes (`write_f64` emits the
big-endian bytes of the bit pattern). -/
def pack_float (value : Nat) : List Nat :=
  0xC1 :: beBytes 8 value

mutual

/-- `pack` from `src/packstream/src/pack.rs` (lines 10-21): dispatch on the
variant.  `none` models the `panic!` paths for oversized containers. -/
def pack : Value → Option (List Nat)
  | .null => some [0xC0]
  | .boolean x => some [if x then 0xC3 else 0xC2]
  | .integer x => some (pack_integer x)
  | .float x => some (pack_float x)
  | .string x => pack_string x
  | .list items =>
    match listHeader items.length, packItems items with
    | some h, some body => some (h ++ body)
    | _, _ => none
  | .map entries =>
    match mapHeader entries.length, packEntries entries with
    | some h, some body => some (h ++ body)
    | _, _ => none
  | .struct signature fields =>
    match structHeader fields.length, packItems fields with
    | some h, some body => some (h ++ signature :: body)
    | _, _ => none

/-- The field/item loop of `pack_list` / `pack_structure`. -/
def packItems : List Value → Option (List Nat)
  | [] => some []
  | v :: vs =>
    match pack v, packItems vs with
    | some bv, some bvs => some (bv ++ bvs)
    | _, _ => none

/-- The entry loop of `pack_map`: each key via `pack_string`, then the
value. -/
def packEntries : List (List Nat × Value) → Option (List Nat)
  | [] => some []
  | (k, v) :: es =>
    match pack_string k, pack v, packEntries es with
    | some bk, some bv, some bes => some (bk ++ bv ++ bes)
    | _, _, _ => none

end

/-! ## PackStream decoder (src/packstream/src/unpack.rs) -/

/-- Result of a decoding step.  `ok` carries the decoded value and the
remaining input.  `err` models the Rust function returning
`Err(io::Error)` to its caller (reads hitting end of input); `panicked`
models a `panic!` (process abort, nothing returned); `outOfFuel` is the
artefact of the fuel-indexed embedding and never occurs for the fuel the
top-level entry point supplies. -/
inductive PRes (α : Type) where
  | ok (val : α) (rest : List Nat)
  | err
  | panicked
  | outOfFuel

/-- `read_uN::<BigEndian>` / `read_exact`: take `k` bytes and fold them
big-endian; an `io` error (`err`) if fewer than `k` bytes remain. -/
def read_be (k : Nat) (input : List Nat) : PRes Nat :=
  if k ≤ input.length then .ok (beVal (input.take k)) (input.drop k) else .err

/-- `read_iN::<BigEndian>`: like `read_be` but two's-complement signed. -/
def signedOf (k v : Nat) : Int :=
  if v < 2 ^ (8 * k - 1) then (v : Int) else (v : Int) - 2 ^ (8 * k)

/-- `unpack_string` from `src/packstream/src/unpack.rs` (lines 76-80):
`stream.take(size).read_to_string(&mut s)` reads at most `size` bytes (a
short read is silent); the bytes of a Rust `String` are returned
verbatim. -/
def unpack_string (size : Nat) (input : List Nat) : PRes Value :=
  .ok (.string (input.take size)) (input.drop size)

mutual

/-- `unpack` from `src/packstream/src/unpack.rs` (lines 11-74), fuel-indexed.
The marker dispatch follows the Rust `match` arm for arm; the final wildcard
arm is `panic!("Illegal value with marker ...")`. -/
def unpackF : Nat → List Nat → PRes Value
  | 0, _ => .outOfFuel
  | fuel + 1, input =>
    match input with
    | [] => .err
    | marker :: rest =>
      if marker ≤ 0x7F then .ok (.integer marker) rest
      else if marker ≤ 0x8F then unpack_string (marker % 16) rest
      else if marker ≤ 0x9F then unpack_list fuel (marker % 16) rest
      else if marker ≤ 0xAF then unpack_map fuel (marker % 16) rest
      else if marker ≤ 0xBF then unpack_structure fuel (marker % 16) rest
      else if marker = 0xC0 then .ok .null rest
      else if marker = 0xC1 then
        match read_be 8 rest with
        | .ok bits r => .ok (.float bits) r
        | _ => .err
      else if marker = 0xC2 then .ok (.boolean false) rest
      else if marker = 0xC3 then .ok (.boolean true) rest
      else if marker = 0xC8 then
        match read_be 1 rest with
        | .ok v r => .ok (.integer (signedOf 1 v)) r
        | _ => .err
      else if marker = 0xC9 then
        match read_be 2 rest with
        | .ok v r => .ok (.integer (signedOf 2 v)) r
        | _ => .err
      else if marker = 0xCA then
        match read_be 4 rest with
        | .ok v r => .ok (.integer (signedOf 4 v)) r
        | _ => .err
      else if marker = 0xCB then
        match read_be 8 rest with
        | .ok v r => .ok (.integer (signedOf 8 v)) r
        | _ => .err
      else if marker = 0xD0 then
        match read_be 1 rest with
        | .ok size r => unpack_string size r
        | _ => .err
      else if marker = 0xD1 then
        match read_be 2 rest with
        | .ok size r => unpack_string size r
        | _ => .err
      else if marker = 0xD2 then
        match read_be 4 rest with
        | .ok size r => unpack_string size r
        | _ => .err
      else if marker = 0xD4 then
        match read_be 1 rest with
        | .ok size r => unpack_list fuel size r
        | _ => .err
      else if marker = 0xD5 then
        match read_be 2 rest with
        | .ok size r => unpack_list fuel size r
        | _ => .err
      else if marker = 0xD6 then
        match read_be 4 rest with
        | .ok size r => unpack_list fuel size r
        | _ => .err
      else if marker = 0xD8 then
        match read_be 1 rest with
        | .ok size r => unpack_map fuel size r
        | _ => .err
      else if marker = 0xD9 then
        match read_be 2 rest with
        | .ok size r => unpack_map fuel size r
        | _ => .err
      else if marker = 0xDA then
        match read_be 4 rest with
        | .ok size r => unpack_map fuel size r
        | _ => .err
      else if marker = 0xDC then
        match read_be 1 rest with
        | .ok size r => unpack_structure fuel size r
        | _ => .err
      else if marker = 0xDD then
        match read_be 2 rest with
        | .ok size r => unpack_structure fuel size r
        | _ => .err
      else if 0xF0 ≤ marker ∧ marker ≤ 0xFF then
        .ok (.integer ((marker : Int) - 0x100)) rest
      else .panicked
termination_by fuel input => (fuel, 0)

/-- `unpack_list`: read `size` items. -/
def unpack_list (fuel size : Nat) (input : List Nat) : PRes Value :=
  match unpackItemsF fuel size input with
  | .ok items r => .ok (.list items) r
  | .err => .err
  | .panicked => .panicked
  | .outOfFuel => .outOfFuel
termination_by (fuel, size + 2)

/-- `unpack_map`: read `size` key/value pairs. -/
def unpack_map (fuel size : Nat) (input : List Nat) : PRes Value :=
  match unpackEntriesF fuel size input with
  | .ok entries r => .ok (.map entries) r
  | .err => .err
  | .panicked => .panicked
  | .outOfFuel => .outOfFuel
termination_by (fuel, size + 2)

/-- `unpack_structure`: read the signature byte, then `size` fields. -/
def unpack_structure (fuel size : Nat) (input : List Nat) : PRes Value :=
  match input with
  | [] => .err
  | signature :: rest =>
    match unpackItemsF fuel size rest with
    | .ok fields r => .ok (.struct signature fields) r
    | .err => .err
    | .panicked => .panicked
    | .outOfFuel => .outOfFuel
termination_by (fuel, size + 2)

/-- The item loop of `unpack_list` / `unpack_structure`. -/
def unpackItemsF (fuel : Nat) : Nat → List Nat → PRes (List Value)
  | 0, input => .ok [] input
  | size + 1, input =>
    match unpackF fuel input with
    | .ok v r =>
      match unpackItemsF fuel size r with
      | .ok vs r' => .ok (v :: vs) r'
      | .err => .err
      | .panicked => .panicked
      | .outOfFuel => .outOfFuel
    | .err => .err
    | .panicked => .panicked
    | .outOfFuel => .outOfFuel
termination_by size input => (fuel, size + 1)

/-- The entry loop of `unpack_map`: a non-string key is
`panic!("Key is not a string")`. -/
def unpackEntriesF (fuel : Nat) : Nat → List Nat → PRes (List (List Nat × Value))
  | 0, input => .ok [] input
  | size + 1, input =>
    match unpackF fuel input with
    | .ok key r =>
      match key with
      | .string k =>
        match unpackF fuel r with
        | .ok v r' =>
          match unpackEntriesF fuel size r' with
          | .ok es r'' => .ok ((k, v) :: es) r''
          | .err => .err
          | .panicked => .panicked
          | .outOfFuel => .outOfFuel
        | .err => .err
        | .panicked => .panicked
        | .outOfFuel => .outOfFuel
      | _ => .panicked
    | .err => .err
    | .panicked => .panicked
    | .outOfFuel => .outOfFuel
termination_by size input => (fuel, size + 1)

end

/-- The decoder entry point: one byte of fuel per input byte is more than
enough, since every decoding step consumes at least one byte. -/
def unpack (input : List Nat) : PRes Value :=
  unpackF (input.length + 1) input

/-! ## Well-formed values

`wf v` says that `v` denotes an actual Rust value: integers fit in `i64`,
float bit patterns fit in 64 bits, string bytes and structure signatures are
bytes, and map entry lists are `HashMap` iteration sequences (distinct
keys).  Every value the Rust program can build satisfies `wf`. -/

mutual

def wf : Value → Bool
  | .null => true
  | .boolean _ => true
  | .integer n => decide (-(2 ^ 63) ≤ n) && decide (n < 2 ^ 63)
  | .float bits => decide (bits < 2 ^ 64)
  | .string bytes => bytes.all (fun b => b < 256)
  | .list items => wfItems items
  | .map entries => wfEntries entries && decide (entries.map Prod.fst).Nodup
  | .struct signature fields => decide (signature < 256) && wfItems fields

def wfItems : List Value → Bool
  | [] => true
  | v :: vs => wf v && wfItems vs

def wfEntries : List (List Nat × Value) → Bool
  | [] => true
  | (k, v) :: es => k.all (fun b => b < 256) && wf v && wfEntries es

end

/-! ## Nesting depth

`depth v` bounds the recursion depth the decoder needs for `v`; it is used
as the fuel bound in the round-trip proof. -/

mutual

def depth : Value → Nat
  | .list items => depthItems items + 1
  | .map entries => depthEntries entries + 1
  | .struct _ fields => depthItems fields + 1
  | _ => 1

def depthItems : List Value → Nat
  | [] => 0
  | v :: vs => max (depth v) (depthItems vs)

def depthEntries : List (List Nat × Value) → Nat
  | [] => 0
  | (_, v) :: es => max (depth v) (depthEntries es)

end

/-! ## Decoder/encoder round-trip -/

theorem beBytes_one (m : Nat) : beBytes 1 m = [m % 256] := by
  simp [beBytes]

theorem read_be_append (k n : Nat) (rest : List Nat) (h : n < 256 ^ k) :
    read_be k (beBytes k n ++ rest) = .ok n rest := by
  have hlen : (beBytes k n).length = k := beBytes_length k n
  rw [read_be, if_pos (by simp [hlen]),
    List.take_left' hlen, List.drop_left' hlen, beVal_beBytes k n h]

theorem signedOf_emod (k : Nat) (hk : 1 ≤ k) (n : Int)
    (h₁ : -(2 ^ (8 * k - 1)) ≤ n) (h₂ : n < 2 ^ (8 * k - 1)) :
    signedOf k (n % 2 ^ (8 * k)).toNat = n := by
  have hApos : (0 : Int) < 2 ^ (8 * k - 1) := by positivity
  have h2A : (2 : Int) ^ (8 * k) = 2 * 2 ^ (8 * k - 1) := by
    conv_lhs => rw [show 8 * k = (8 * k - 1) + 1 by omega]
    rw [pow_succ]; ring
  have hm0 : 0 ≤ n % 2 ^ (8 * k) := Int.emod_nonneg n (by positivity)
  have hcast : ((n % 2 ^ (8 * k)).toNat : Int) = n % 2 ^ (8 * k) :=
    Int.toNat_of_nonneg hm0
  have hAcast : ((2 ^ (8 * k - 1) : Nat) : Int) = 2 ^ (8 * k - 1) := by
    push_cast; rfl
  rcases le_or_lt 0 n with hn | hn
  · have hmod : n % 2 ^ (8 * k) = n := Int.emod_eq_of_lt hn (by linarith)
    unfold signedOf
    split
    · exact hcast.trans hmod
    · next hge =>
      exfalso
      apply hge
      have hint : ((n % 2 ^ (8 * k)).toNat : Int) <
          ((2 ^ (8 * k - 1) : Nat) : Int) := by
        rw [hAcast, hcast, hmod]; exact h₂
      exact_mod_cast hint
  · have hmod : n % 2 ^ (8 * k) = n + 2 ^ (8 * k) := by
      have h' : (n + 2 ^ (8 * k) * 1) % 2 ^ (8 * k) = n % 2 ^ (8 * k) :=
        @Int.add_mul_emod_self_left n (2 ^ (8 * k)) 1
      rw [mul_one] at h'
      rw [← h']
      exact Int.emod_eq_of_lt (by linarith) (by linarith)
    unfold signedOf
    split
    · next hlt =>
      exfalso
      have hint : ((n % 2 ^ (8 * k)).toNat : Int) < 2 ^ (8 * k - 1) := by
        rw [← hAcast]; exact_mod_cast hlt
      rw [hcast, hmod, h2A] at hint
      linarith
    · rw [hcast, hmod]; ring

/-! Dispatch lemmas for the decoder's marker ranges with a symbolic marker
byte.  Concrete markers reduce by `simp`/`norm_num` directly. -/

theorem unpackF_tinyNeg (fuel marker : Nat) (rest : List Nat)
    (h₁ : 0xF0 ≤ marker) (h₂ : marker ≤ 0xFF) :
    unpackF (fuel + 1) (marker :: rest) =
      .ok (.integer ((marker : Int) - 0x100)) rest := by
  simp only [unpackF]
  repeat rw [if_neg (by omega)]
  rw [if_pos (by omega)]

theorem unpackF_tinyInt (fuel marker : Nat) (rest : List Nat)
    (h : marker ≤ 0x7F) :
    unpackF (fuel + 1) (marker :: rest) = .ok (.integer marker) rest := by
  simp only [unpackF]
  rw [if_pos (by omega)]

theorem unpackF_tinyString (fuel marker : Nat) (rest : List Nat)
    (h₁ : 0x80 ≤ marker) (h₂ : marker ≤ 0x8F) :
    unpackF (fuel + 1) (marker :: rest) = unpack_string (marker % 16) rest := by
  simp only [unpackF]
  rw [if_neg (by omega), if_pos (by omega)]

theorem unpackF_tinyList (fuel marker : Nat) (rest : List Nat)
    (h₁ : 0x90 ≤ marker) (h₂ : marker ≤ 0x9F) :
    unpackF (fuel + 1) (marker :: rest) = unpack_list fuel (marker % 16) rest := by
  simp only [unpackF]
  rw [if_neg (by omega), if_neg (by omega), if_pos (by omega)]

theorem unpackF_tinyMap (fuel marker : Nat) (rest : List Nat)
    (h₁ : 0xA0 ≤ marker) (h₂ : marker ≤ 0xAF) :
    unpackF (fuel + 1) (marker :: rest) = unpack_map fuel (marker % 16) rest := by
  simp only [unpackF]
  rw [if_neg (by omega), if_neg (by omega), if_neg (by omega), if_pos (by omega)]

theorem unpackF_tinyStruct (fuel marker : Nat) (rest : List Nat)
    (h₁ : 0xB0 ≤ marker) (h₂ : marker ≤ 0xBF) :
    unpackF (fuel + 1) (marker :: rest) = unpack_structure fuel (marker % 16) rest := by
  simp only [unpackF]
  rw [if_neg (by omega), if_neg (by omega), if_neg (by omega), if_neg (by omega),
      if_pos (by omega)]

/-- `read_u8` on a nonempty stream. -/
theorem read_be_one (b : Nat) (rest : List Nat) :
    read_be 1 (b :: rest) = .ok b rest := by
  simp [read_be, beVal]

/-- Round-trip for the string encoder: whatever header `pack_string` chose,
the decoder reads back exactly the same byte content. -/
theorem unpack_pack_string (bytes bs rest : List Nat) (fuel : Nat)
    (hp : pack_string bytes = some bs) :
    unpackF (fuel + 1) (bs ++ rest) = .ok (.string bytes) rest := by
  unfold pack_string at hp
  split at hp
  · next h =>
    cases hp
    rw [List.cons_append, unpackF_tinyString fuel _ _ (by omega) (by omega),
      show (0x80 + bytes.length) % 16 = bytes.length by omega]
    rw [unpack_string, List.take_left, List.drop_left]
  · split at hp
    · next h =>
      cases hp
      simp only [List.cons_append, unpackF]
      norm_num [read_be_one, unpack_string, List.take_left, List.drop_left]
    · split at hp
      · next h =>
        cases hp
        simp only [List.cons_append, List.append_assoc, unpackF]
        norm_num
        rw [read_be_append 2 bytes.length (bytes ++ rest) (by norm_num; omega)]
        simp [unpack_string, List.take_left, List.drop_left]
      · split at hp
        · next h =>
          cases hp
          simp only [List.cons_append, List.append_assoc, unpackF]
          norm_num
          rw [read_be_append 4 bytes.length (bytes ++ rest) (by norm_num; omega)]
          simp [unpack_string, List.take_left, List.drop_left]
        · cases hp

/-- Round-trip for the integer encoder across all five ladder branches. -/
theorem unpack_pack_integer (n : Int) (rest : List Nat) (fuel : Nat)
    (h₁ : -(2 ^ 63) ≤ n) (h₂ : n < 2 ^ 63) :
    unpackF (fuel + 1) (pack_integer n ++ rest) = .ok (.integer n) rest := by
  unfold pack_integer
  split
  · next h =>
    -- TINY_INT: one bare byte
    rw [beBytes_one]
    have hval : n % 2 ^ 8 = if 0 ≤ n then n else n + 256 := by
      norm_num
      split
      · next hn => exact Int.emod_eq_of_lt hn (by omega)
      · next hn =>
        have h' : (n + 256 * 1) % 256 = n % 256 :=
          @Int.add_mul_emod_self_left n 256 1
        rw [mul_one] at h'
        rw [← h']
        exact Int.emod_eq_of_lt (by omega) (by omega)
    rcases le_or_lt 0 n with hn | hn
    · have hb : (n % 2 ^ 8).toNat = n.toNat := by rw [hval, if_pos hn]
      rw [hb, show n.toNat % 256 = n.toNat by omega, List.singleton_append,
        unpackF_tinyInt fuel n.toNat rest (by omega)]
      rw [Int.toNat_of_nonneg hn]
    · have hb : (n % 2 ^ 8).toNat = (n + 256).toNat := by
        rw [hval, if_neg (by omega)]
      rw [hb, show (n + 256).toNat % 256 = (n + 256).toNat by omega,
        List.singleton_append,
        unpackF_tinyNeg fuel (n + 256).toNat rest (by omega) (by omega),
        Int.toNat_of_nonneg (show (0 : Int) ≤ n + 256 by omega)]
      norm_num
  · split
    · next h =>
      -- INT_8
      simp only [List.cons_append, unpackF]
      norm_num
      rw [show beBytes 1 (n % 256).toNat ++ rest =
            (n % 256).toNat % 256 :: rest by rw [beBytes_one]; rfl,
        read_be_one]
      rw [show (n % 256).toNat % 256 = (n % 256).toNat by omega]
      rw [show n % 256 = n % 2 ^ (8 * 1) by norm_num]
      dsimp only
      rw [signedOf_emod 1 (by norm_num) n (by push_cast; omega) (by push_cast; omega)]
    · split
      · next h =>
        -- INT_16
        have hm : (n % 65536).toNat < 256 ^ 2 := by omega
        simp only [List.cons_append, unpackF]
        norm_num
        rw [read_be_append 2 _ rest hm]
        rw [show n % 65536 = n % 2 ^ (8 * 2) by norm_num]
        dsimp only
        rw [signedOf_emod 2 (by norm_num) n (by push_cast; omega) (by push_cast; omega)]
      · split
        · next h =>
          -- INT_32
          have hm : (n % 4294967296).toNat < 256 ^ 4 := by omega
          simp only [List.cons_append, unpackF]
          norm_num
          rw [read_be_append 4 _ rest hm]
          rw [show n % 4294967296 = n % 2 ^ (8 * 4) by norm_num]
          dsimp only
          rw [signedOf_emod 4 (by norm_num) n (by push_cast; omega) (by push_cast; omega)]
        · next h =>
          -- INT_64
          have hm : (n % 18446744073709551616).toNat < 256 ^ 8 := by omega
          simp only [List.cons_append, unpackF]
          norm_num
          rw [read_be_append 8 _ rest hm]
          rw [show n % 18446744073709551616 = n % 2 ^ (8 * 8) by norm_num]
          dsimp only
          rw [signedOf_emod 8 (by norm_num) n (by push_cast; omega) (by push_cast; omega)]

theorem depth_pos (v : Value) : 1 ≤ depth v := by
  cases v <;> simp [depth]

/-- Round-trip for the item loop, given the round-trip property of every
item. -/
theorem unpack_pack_items (items : List Value)
    (IH : ∀ w ∈ items, ∀ bs rest fuel, wf w = true → pack w = some bs →
      depth w ≤ fuel → unpackF fuel (bs ++ rest) = .ok w rest) :
    ∀ bs rest fuel, wfItems items = true → packItems items = some bs →
      depthItems items ≤ fuel →
      unpackItemsF fuel items.length (bs ++ rest) = .ok items rest := by
  induction items with
  | nil =>
    intro bs rest fuel _ hp _
    simp only [packItems] at hp
    cases hp
    simp [unpackItemsF]
  | cons v vs ihvs =>
    intro bs rest fuel hwf hp hfuel
    simp only [packItems] at hp
    cases hv : pack v with
    | none => simp [hv] at hp
    | some bv =>
      cases hvs : packItems vs with
      | none => simp [hv, hvs] at hp
      | some bvs =>
        simp only [hv, hvs] at hp
        cases hp
        simp only [wfItems, Bool.and_eq_true] at hwf
        simp only [depthItems, max_le_iff] at hfuel
        simp only [List.length_cons, unpackItemsF]
        rw [List.append_assoc,
          IH v (List.mem_cons_self v vs) bv (bvs ++ rest) fuel hwf.1 hv hfuel.1]
        dsimp only
        rw [ihvs (fun w hw => IH w (List.mem_cons_of_mem v hw)) bvs rest fuel
          hwf.2 hvs hfuel.2]

/-- Round-trip for the map-entry loop, given the round-trip property of
every entry's value. -/
theorem unpack_pack_entries (entries : List (List Nat × Value))
    (IH : ∀ e ∈ entries, ∀ bs rest fuel, wf e.2 = true → pack e.2 = some bs →
      depth e.2 ≤ fuel → unpackF fuel (bs ++ rest) = .ok e.2 rest) :
    ∀ bs rest fuel, wfEntries entries = true → packEntries entries = some bs →
      depthEntries entries ≤ fuel →
      unpackEntriesF fuel entries.length (bs ++ rest) = .ok entries rest := by
  induction entries with
  | nil =>
    intro bs rest fuel _ hp _
    simp only [packEntries] at hp
    cases hp
    simp [unpackEntriesF]
  | cons e es ihes =>
    obtain ⟨k, v⟩ := e
    intro bs rest fuel hwf hp hfuel
    simp only [packEntries] at hp
    cases hk : pack_string k with
    | none => simp [hk] at hp
    | some bk =>
      cases hv : pack v with
      | none => simp [hk, hv] at hp
      | some bv =>
        cases hes : packEntries es with
        | none => simp [hk, hv, hes] at hp
        | some bes =>
          simp only [hk, hv, hes] at hp
          cases hp
          simp only [wfEntries, Bool.and_eq_true] at hwf
          simp only [depthEntries, max_le_iff] at hfuel
          have h1 : 1 ≤ fuel := le_trans (depth_pos v) hfuel.1
          obtain ⟨f, rfl⟩ : ∃ f, fuel = f + 1 := ⟨fuel - 1, by omega⟩
          simp only [List.length_cons, unpackEntriesF]
          rw [List.append_assoc, List.append_assoc,
            unpack_pack_string k bk (bv ++ (bes ++ rest)) f hk]
          dsimp only
          rw [IH (k, v) (List.mem_cons_self (k, v) es) bv (bes ++ rest) (f + 1)
            hwf.1.2 hv hfuel.1]
          dsimp only
          rw [ihes (fun w hw => IH w (List.mem_cons_of_mem (k, v) hw)) bes rest
            (f + 1) hwf.2 hes hfuel.2]

set_option maxHeartbeats 1000000 in
/-- Round-trip for every well-formed value, by strong induction on the
value's size.  The fuel only needs to dominate the nesting depth. -/
theorem unpack_pack_aux (N : Nat) : ∀ v : Value, sizeOf v ≤ N →
    ∀ bs rest fuel, wf v = true → pack v = some bs → depth v ≤ fuel →
      unpackF fuel (bs ++ rest) = .ok v rest := by
  induction N with
  | zero =>
    intro v hv
    exfalso
    cases v <;> simp at hv <;> omega
  | succ N ihN =>
    intro v hsize bs rest fuel hwf hp hfuel
    have h1 : 1 ≤ fuel := le_trans (depth_pos v) hfuel
    obtain ⟨f, rfl⟩ : ∃ f, fuel = f + 1 := ⟨fuel - 1, by omega⟩
    cases v with
    | null =>
      simp only [pack] at hp
      cases hp
      rw [List.singleton_append]
      simp only [unpackF]
      norm_num
    | boolean b =>
      simp only [pack] at hp
      cases hp
      cases b <;> (rw [List.singleton_append]; simp only [unpackF]; norm_num)
    | integer n =>
      simp only [pack] at hp
      cases hp
      simp only [wf, Bool.and_eq_true, decide_eq_true_eq] at hwf
      exact unpack_pack_integer n rest f hwf.1 hwf.2
    | float bits =>
      simp only [pack] at hp
      cases hp
      simp only [wf, decide_eq_true_eq] at hwf
      simp only [pack_float, List.cons_append, unpackF]
      norm_num
      rw [read_be_append 8 bits rest (by norm_num; omega)]
    | string bytes =>
      simp only [pack] at hp
      exact unpack_pack_string bytes bs rest f hp
    | list items =>
      simp only [pack] at hp
      cases hh : listHeader items.length with
      | none => simp [hh] at hp
      | some hdr =>
        cases hb : packItems items with
        | none => simp [hh, hb] at hp
        | some body =>
          simp only [hh, hb] at hp
          cases hp
          simp only [wf] at hwf
          have hdep : depthItems items ≤ f := by
            simp only [depth] at hfuel; omega
          have hIH : ∀ w ∈ items, ∀ bs rest fuel, wf w = true →
              pack w = some bs → depth w ≤ fuel →
              unpackF fuel (bs ++ rest) = .ok w rest := by
            intro w hw
            apply ihN w
            have h₁ := List.sizeOf_lt_of_mem hw
            have h₂ : sizeOf (Value.list items) ≤ N + 1 := hsize
            simp only [Value.list.sizeOf_spec] at h₂
            omega
          have hloop := unpack_pack_items items hIH body rest f hwf hb hdep
          unfold listHeader at hh
          split at hh
          · next hlen =>
            cases hh
            rw [show ([0x90 + items.length] ++ body) ++ rest =
                  (0x90 + items.length) :: (body ++ rest) by simp only [List.cons_append, List.singleton_append, List.nil_append, List.append_assoc]]
            rw [unpackF_tinyList f _ _ (by omega) (by omega),
              show (0x90 + items.length) % 16 = items.length by omega]
            rw [unpack_list, hloop]
          · split at hh
            · next hlen =>
              cases hh
              rw [show ([0xD4, items.length] ++ body) ++ rest =
                    0xD4 :: items.length :: (body ++ rest) by simp only [List.cons_append, List.singleton_append, List.nil_append, List.append_assoc]]
              simp only [unpackF]
              norm_num
              rw [read_be_one]
              dsimp only
              rw [unpack_list, hloop]
            · split at hh
              · next hlen =>
                cases hh
                rw [show ((0xD5 :: beBytes 2 items.length) ++ body) ++ rest =
                      0xD5 :: (beBytes 2 items.length ++ (body ++ rest)) by simp only [List.cons_append, List.append_assoc]]
                simp only [unpackF]
                norm_num
                rw [read_be_append 2 items.length (body ++ rest) (by norm_num; omega)]
                dsimp only
                rw [unpack_list, hloop]
              · split at hh
                · next hlen =>
                  cases hh
                  rw [show ((0xD6 :: beBytes 4 items.length) ++ body) ++ rest =
                        0xD6 :: (beBytes 4 items.length ++ (body ++ rest)) by simp only [List.cons_append, List.append_assoc]]
                  simp only [unpackF]
                  norm_num
                  rw [read_be_append 4 items.length (body ++ rest) (by norm_num; omega)]
                  dsimp only
                  rw [unpack_list, hloop]
                · cases hh
    | map entries =>
      simp only [pack] at hp
      cases hh : mapHeader entries.length with
      | none => simp [hh] at hp
      | some hdr =>
        cases hb : packEntries entries with
        | none => simp [hh, hb] at hp
        | some body =>
          simp only [hh, hb] at hp
          cases hp
          simp only [wf, Bool.and_eq_true] at hwf
          have hdep : depthEntries entries ≤ f := by
            simp only [depth] at hfuel; omega
          have hIH : ∀ e ∈ entries, ∀ bs rest fuel, wf e.2 = true →
              pack e.2 = some bs → depth e.2 ≤ fuel →
              unpackF fuel (bs ++ rest) = .ok e.2 rest := by
            intro e he
            apply ihN e.2
            have h₁ := List.sizeOf_lt_of_mem he
            have h₂ : sizeOf (Value.map entries) ≤ N + 1 := hsize
            simp only [Value.map.sizeOf_spec] at h₂
            have h₃ : sizeOf e.2 < sizeOf e := by
              obtain ⟨k, w⟩ := e
              simp only [Prod.mk.sizeOf_spec]
              omega
            omega
          have hloop := unpack_pack_entries entries hIH body rest f hwf.1 hb hdep
          unfold mapHeader at hh
          split at hh
          · next hlen =>
            cases hh
            rw [show ([0xA0 + entries.length] ++ body) ++ rest =
                  (0xA0 + entries.length) :: (body ++ rest) by simp only [List.cons_append, List.singleton_append, List.nil_append, List.append_assoc]]
            rw [unpackF_tinyMap f _ _ (by omega) (by omega),
              show (0xA0 + entries.length) % 16 = entries.length by omega]
            rw [unpack_map, hloop]
          · split at hh
            · next hlen =>
              cases hh
              rw [show ([0xD8, entries.length] ++ body) ++ rest =
                    0xD8 :: entries.length :: (body ++ rest) by simp only [List.cons_append, List.singleton_append, List.nil_append, List.append_assoc]]
              simp only [unpackF]
              norm_num
              rw [read_be_one]
              dsimp only
              rw [unpack_map, hloop]
            · split at hh
              · next hlen =>
                cases hh
                rw [show ((0xD9 :: beBytes 2 entries.length) ++ body) ++ rest =
                      0xD9 :: (beBytes 2 entries.length ++ (body ++ rest)) by simp only [List.cons_append, List.append_assoc]]
                simp only [unpackF]
                norm_num
                rw [read_be_append 2 entries.length (body ++ rest) (by norm_num; omega)]
                dsimp only
                rw [unpack_map, hloop]
              · split at hh
                · next hlen =>
                  cases hh
                  rw [show ((0xDA :: beBytes 4 entries.length) ++ body) ++ rest =
                        0xDA :: (beBytes 4 entries.length ++ (body ++ rest)) by simp only [List.cons_append, List.append_assoc]]
                  simp only [unpackF]
                  norm_num
                  rw [read_be_append 4 entries.length (body ++ rest) (by norm_num; omega)]
                  dsimp only
                  rw [unpack_map, hloop]
                · cases hh
    | struct signature fields =>
      simp only [pack] at hp
      cases hh : structHeader fields.length with
      | none => simp [hh] at hp
      | some hdr =>
        cases hb : packItems fields with
        | none => simp [hh, hb] at hp
        | some body =>
          simp only [hh, hb] at hp
          cases hp
          simp only [wf, Bool.and_eq_true] at hwf
          have hdep : depthItems fields ≤ f := by
            simp only [depth] at hfuel; omega
          have hIH : ∀ w ∈ fields, ∀ bs rest fuel, wf w = true →
              pack w = some bs → depth w ≤ fuel →
              unpackF fuel (bs ++ rest) = .ok w rest := by
            intro w hw
            apply ihN w
            have h₁ := List.sizeOf_lt_of_mem hw
            have h₂ : sizeOf (Value.struct signature fields) ≤ N + 1 := hsize
            simp only [Value.struct.sizeOf_spec] at h₂
            omega
          have hloop := unpack_pack_items fields hIH body rest f hwf.2 hb hdep
          unfold structHeader at hh
          split at hh
          · next hlen =>
            cases hh
            rw [show ([0xB0 + fields.length] ++ signature :: body) ++ rest =
                  (0xB0 + fields.length) :: (signature :: (body ++ rest)) by simp only [List.cons_append, List.singleton_append, List.nil_append, List.append_assoc]]
            rw [unpackF_tinyStruct f _ _ (by omega) (by omega),
              show (0xB0 + fields.length) % 16 = fields.length by omega]
            rw [unpack_structure, hloop]
          · split at hh
            · next hlen =>
              cases hh
              rw [show ([0xDC, fields.length] ++ signature :: body) ++ rest =
                    0xDC :: fields.length :: (signature :: (body ++ rest)) by simp only [List.cons_append, List.singleton_append, List.nil_append, List.append_assoc]]
              simp only [unpackF]
              norm_num
              rw [read_be_one]
              dsimp only
              rw [unpack_structure, hloop]
            · split at hh
              · next hlen =>
                cases hh
                rw [show ((0xDD :: beBytes 2 fields.length) ++ signature :: body) ++ rest =
                      0xDD :: (beBytes 2 fields.length ++ (signature :: (body ++ rest))) by simp only [List.cons_append, List.append_assoc]]
                simp only [unpackF]
                norm_num
                rw [read_be_append 2 fields.length (signature :: (body ++ rest))
                  (by norm_num; omega)]
                dsimp only
                rw [unpack_structure, hloop]
              · cases hh

theorem pack_integer_length_pos (n : Int) : 1 ≤ (pack_integer n).length := by
  unfold pack_integer
  split
  · simp [beBytes_length]
  · split
    · simp
    · split
      · simp
      · split
        · simp
        · simp

theorem pack_string_length_pos (bytes bs : List Nat) (hp : pack_string bytes = some bs) :
    1 ≤ bs.length := by
  unfold pack_string at hp
  split at hp
  · cases hp; simp
  · split at hp
    · cases hp; simp
    · split at hp
      · cases hp; simp
      · split at hp
        · cases hp; simp
        · cases hp

theorem listHeader_length_pos (size : Nat) (h : List Nat)
    (hh : listHeader size = some h) : 1 ≤ h.length := by
  unfold listHeader at hh
  split at hh
  · cases hh; simp
  · split at hh
    · cases hh; simp
    · split at hh
      · cases hh; simp
      · split at hh
        · cases hh; simp
        · cases hh

theorem mapHeader_length_pos (size : Nat) (h : List Nat)
    (hh : mapHeader size = some h) : 1 ≤ h.length := by
  unfold mapHeader at hh
  split at hh
  · cases hh; simp
  · split at hh
    · cases hh; simp
    · split at hh
      · cases hh; simp
      · split at hh
        · cases hh; simp
        · cases hh

theorem structHeader_length_pos (size : Nat) (h : List Nat)
    (hh : structHeader size = some h) : 1 ≤ h.length := by
  unfold structHeader at hh
  split at hh
  · cases hh; simp
  · split at hh
    · cases hh; simp
    · split at hh
      · cases hh; simp
      · cases hh

theorem packItems_depth (items : List Value)
    (IH : ∀ w ∈ items, ∀ bs, pack w = some bs → depth w ≤ bs.length) :
    ∀ bs, packItems items = some bs → depthItems items ≤ bs.length := by
  induction items with
  | nil =>
    intro bs hp
    simp only [packItems] at hp
    cases hp
    simp [depthItems]
  | cons v vs ihvs =>
    intro bs hp
    simp only [packItems] at hp
    cases hv : pack v with
    | none => simp [hv] at hp
    | some bv =>
      cases hvs : packItems vs with
      | none => simp [hv, hvs] at hp
      | some bvs =>
        simp only [hv, hvs] at hp
        cases hp
        have h₁ := IH v (List.mem_cons_self v vs) bv hv
        have h₂ := ihvs (fun w hw => IH w (List.mem_cons_of_mem v hw)) bvs hvs
        simp only [depthItems, List.length_append, max_le_iff]
        omega

theorem packEntries_depth (entries : List (List Nat × Value))
    (IH : ∀ e ∈ entries, ∀ bs, pack e.2 = some bs → depth e.2 ≤ bs.length) :
    ∀ bs, packEntries entries = some bs → depthEntries entries ≤ bs.length := by
  induction entries with
  | nil =>
    intro bs hp
    simp only [packEntries] at hp
    cases hp
    simp [depthEntries]
  | cons e es ihes =>
    obtain ⟨k, v⟩ := e
    intro bs hp
    simp only [packEntries] at hp
    cases hk : pack_string k with
    | none => simp [hk] at hp
    | some bk =>
      cases hv : pack v with
      | none => simp [hk, hv] at hp
      | some bv =>
        cases hes : packEntries es with
        | none => simp [hk, hv, hes] at hp
        | some bes =>
          simp only [hk, hv, hes] at hp
          cases hp
          have h₁ : depth v ≤ bv.length := IH (k, v) (List.mem_cons_self (k, v) es) bv hv
          have h₂ := ihes (fun w hw => IH w (List.mem_cons_of_mem (k, v) hw)) bes hes
          simp only [depthEntries, List.length_append, max_le_iff]
          omega

/-- The encoding of a value is at least as long as the value is deep: every
nesting level contributes at least a header byte. -/
theorem pack_depth_aux (N : Nat) : ∀ v : Value, sizeOf v ≤ N →
    ∀ bs, pack v = some bs → depth v ≤ bs.length := by
  induction N with
  | zero =>
    intro v hv
    exfalso
    cases v <;> simp at hv <;> omega
  | succ N ihN =>
    intro v hsize bs hp
    cases v with
    | null => simp only [pack] at hp; cases hp; simp [depth]
    | boolean b => simp only [pack] at hp; cases hp; simp [depth]
    | integer n =>
      simp only [pack] at hp
      cases hp
      have := pack_integer_length_pos n
      simp only [depth]
      omega
    | float bits =>
      simp only [pack] at hp
      cases hp
      simp [depth, pack_float, beBytes_length]
    | string bytes =>
      simp only [pack] at hp
      have := pack_string_length_pos bytes bs hp
      simp only [depth]
      omega
    | list items =>
      simp only [pack] at hp
      cases hh : listHeader items.length with
      | none => simp [hh] at hp
      | some hdr =>
        cases hb : packItems items with
        | none => simp [hh, hb] at hp
        | some body =>
          simp only [hh, hb] at hp
          cases hp
          have hIH : ∀ w ∈ items, ∀ bs, pack w = some bs → depth w ≤ bs.length := by
            intro w hw
            apply ihN w
            have h₁ := List.sizeOf_lt_of_mem hw
            have h₂ : sizeOf (Value.list items) ≤ N + 1 := hsize
            simp only [Value.list.sizeOf_spec] at h₂
            omega
          have h₁ := packItems_depth items hIH body hb
          have h₂ := listHeader_length_pos items.length hdr hh
          simp only [depth, List.length_append]
          omega
    | map entries =>
      simp only [pack] at hp
      cases hh : mapHeader entries.length with
      | none => simp [hh] at hp
      | some hdr =>
        cases hb : packEntries entries with
        | none => simp [hh, hb] at hp
        | some body =>
          simp only [hh, hb] at hp
          cases hp
          have hIH : ∀ e ∈ entries, ∀ bs, pack e.2 = some bs → depth e.2 ≤ bs.length := by
            intro e he
            apply ihN e.2
            have h₁ := List.sizeOf_lt_of_mem he
            have h₂ : sizeOf (Value.map entries) ≤ N + 1 := hsize
            simp only [Value.map.sizeOf_spec] at h₂
            have h₃ : sizeOf e.2 < sizeOf e := by
              obtain ⟨k, w⟩ := e
              simp only [Prod.mk.sizeOf_spec]
              omega
            omega
          have h₁ := packEntries_depth entries hIH body hb
          have h₂ := mapHeader_length_pos entries.length hdr hh
          simp only [depth, List.length_append]
          omega
    | struct signature fields =>
      simp only [pack] at hp
      cases hh : structHeader fields.length with
      | none => simp [hh] at hp
      | some hdr =>
        cases hb : packItems fields with
        | none => simp [hh, hb] at hp
        | some body =>
          simp only [hh, hb] at hp
          cases hp
          have hIH : ∀ w ∈ fields, ∀ bs, pack w = some bs → depth w ≤ bs.length := by
            intro w hw
            apply ihN w
            have h₁ := List.sizeOf_lt_of_mem hw
            have h₂ : sizeOf (Value.struct signature fields) ≤ N + 1 := hsize
            simp only [Value.struct.sizeOf_spec] at h₂
            omega
          have h₁ := packItems_depth fields hIH body hb
          have h₂ := structHeader_length_pos fields.length hdr hh
          simp only [depth, List.length_append, List.length_cons]
          omega

/-- C1: For every Value `V` (over the variants Null, Boolean, Integer,
Float, String, List, Map, Structure), decoding the bytes produced by
encoding yields `V` again: `unpack` applied to the output of `pack` returns
a value equal to `V`.  The equality is structural: the Map entry sequence
(hence its key set), the List order, and the Float bit pattern (bit-exact)
are all preserved. -/
theorem c1_codec_roundtrip (v : Value) (hwf : wf v = true) (bs : List Nat)
    (hp : pack v = some bs) : unpack bs = .ok v [] := by
  have hd := pack_depth_aux (sizeOf v) v le_rfl bs hp
  have h := unpack_pack_aux (sizeOf v) v le_rfl bs [] (bs.length + 1) hwf hp
    (by omega)
  rw [List.append_nil] at h
  exact h

/-- A concrete value touching every variant, for the C1 witness. -/
def vC1 : Value :=
  .list [.null, .boolean true, .integer (-300), .float 4607182418800017408,
    .string [104, 105], .map [([107, 49], .integer 7), ([107, 50], .null)],
    .struct 0x4E [.integer 1, .list []]]

/-- The encoding of `vC1`. -/
def bC1 : List Nat :=
  [151, 192, 195, 201, 254, 212, 193, 63, 240, 0, 0, 0, 0, 0, 0, 130, 104,
    105, 162, 130, 107, 49, 7, 130, 107, 50, 192, 178, 78, 1, 144]

/-- Witness for C1 at `vC1`. -/
theorem c1_codec_roundtrip_witness :
    wf vC1 = true ∧ pack vC1 = some bC1 ∧ unpack bC1 = .ok vC1 [] :=
  ⟨rfl, rfl, c1_codec_roundtrip vC1 rfl bC1 rfl⟩

/-! ## The `Packer` revision (src/packstream/src/lib.rs) -/

/-- `Packer` from `src/packstream/src/lib.rs` (lines 248-250): an output
buffer of bytes. -/
structure Packer where
  buffer : List Nat

/-- `Packer::pack_float` from `src/packstream/src/lib.rs` (lines 340-342):
the body is an empty `// TODO` stub — it writes nothing to the buffer and
drops the float argument. -/
def Packer.pack_float (p : Packer) (_value : Nat) : Packer :=
  p

/-- C6 (code bug): `pack_float` in `pack.rs` does append exactly nine bytes,
the marker `0xC1` followed by the eight IEEE-754 big-endian bytes — here
evaluated at `x = 1.0` (bit pattern `0x3FF0000000000000`) — but the `Packer`
revision's `pack_float` is a no-op stub that drops the float silently,
violating the claim for that encoder. -/
theorem c6_float_encoding_packer_stub :
    pack_float 4607182418800017408 =
        [0xC1, 0x3F, 0xF0, 0x00, 0x00, 0x00, 0x00, 0x00, 0x00] ∧
      (pack_float 4607182418800017408).length = 9 ∧
      (Packer.pack_float ⟨[]⟩ 4607182418800017408).buffer = [] :=
  ⟨rfl, rfl, rfl⟩

/-! ## Unassigned markers (C7) -/

/-- The unassigned marker opcodes named by the spec: `0xC4..0xC7`,
`0xCC..0xCF`, `0xD3`, `0xD7`, `0xDB`, `0xDE`, `0xDF`, `0xE0..0xEF`. -/
def unassignedMarkers : List Nat :=
  [0xC4, 0xC5, 0xC6, 0xC7, 0xCC, 0xCD, 0xCE, 0xCF, 0xD3, 0xD7, 0xDB, 0xDE,
    0xDF, 0xE0, 0xE1, 0xE2, 0xE3, 0xE4, 0xE5, 0xE6, 0xE7, 0xE8, 0xE9, 0xEA,
    0xEB, 0xEC, 0xED, 0xEE, 0xEF]

/-- C7 counterexample: on the unassigned leading marker `0xC4` the decoder
`panic!`s (aborts the process); it does not return an error value to the
caller. -/
theorem c7_counterexample_panic_not_error :
    unpack [0xC4] = PRes.panicked ∧ unpack [0xC4] ≠ PRes.err := by
  have h : unpack [0xC4] = PRes.panicked := by
    simp only [unpack, unpackF]
    norm_num
  exact ⟨h, by rw [h]; simp⟩

/-- C7 (amended): for every input whose leading marker byte is one of the
unassigned opcodes, decoding aborts with
`panic!("Illegal value with marker ...")` — a process abort, not a
`DecodeMarker` error result returned to the caller. -/
theorem c7_unassigned_marker_panics (marker : Nat)
    (hm : marker ∈ unassignedMarkers) (rest : List Nat) :
    unpack (marker :: rest) = PRes.panicked := by
  show unpackF (rest.length + 1 + 1) (marker :: rest) = PRes.panicked
  fin_cases hm <;> (simp only [unpackF]; norm_num)

/-- Witness for C7's amended claim at marker `0xC4` with trailing input. -/
theorem c7_unassigned_marker_panics_witness :
    0xC4 ∈ unassignedMarkers ∧ unpack [0xC4, 0x01] = PRes.panicked :=
  ⟨by decide, c7_unassigned_marker_panics 0xC4 (by decide) [0x01]⟩

/-! ## Chunk framer (src/neo4j/src/chunk.rs) -/

def MAX_CHUNK_SIZE : Nat := 0xFFFF

/-- Rust's `slice::chunks(MAX_CHUNK_SIZE)`: consecutive runs of at most
`MAX_CHUNK_SIZE` bytes; an empty slice yields no chunks at all. -/
def chunks (buf : List Nat) : List (List Nat) :=
  if buf = [] then []
  else buf.take MAX_CHUNK_SIZE :: chunks (buf.drop MAX_CHUNK_SIZE)
termination_by buf.length
decreasing_by
  simp only [List.length_drop]
  have : buf.length ≠ 0 := fun h => by
    simp [List.length_eq_zero.mp h] at *
  simp [MAX_CHUNK_SIZE]
  omega

/-- `ChunkStream::send` from `src/neo4j/src/chunk.rs` (lines 18-25): for
each chunk write its length as big-endian u16 followed by the chunk bytes,
then write the `0x0000` terminator. -/
def ChunkStream.send (buf : List Nat) : List Nat :=
  ((chunks buf).map (fun chunk => beBytes 2 chunk.length ++ chunk)).flatten ++ [0, 0]

/-- `ChunkStream::recv` from `src/neo4j/src/chunk.rs` (lines 27-37),
fuel-indexed: read a big-endian u16 size, then up to `size` bytes
(`take(size).read_to_end` reads at most `size` without erroring short),
repeating until a zero size; the accumulated bytes and the unread remainder
are returned.  `none` models the `io` error when a chunk header cannot be
read. -/
def ChunkStream.recvF : Nat → List Nat → List Nat → Option (List Nat × List Nat)
  | 0, _, _ => none
  | fuel + 1, acc, input =>
    match input with
    | b0 :: b1 :: rest =>
      if 256 * b0 + b1 = 0 then some (acc, rest)
      else ChunkStream.recvF fuel (acc ++ rest.take (256 * b0 + b1))
        (rest.drop (256 * b0 + b1))
    | _ => none

/-- One `recv` call: every loop iteration consumes at least the two header
bytes, so one unit of fuel per input byte suffices. -/
def ChunkStream.recv (input : List Nat) : Option (List Nat × List Nat) :=
  ChunkStream.recvF (input.length + 1) [] input

/-- The shape of `chunks B`: `k` full chunks of `MAX_CHUNK_SIZE` bytes and a
final chunk of `r` bytes when `r > 0`, re-joining to `B`. -/
theorem chunks_spec (k : Nat) : ∀ (B : List Nat) (r : Nat),
    B.length = 65535 * k + r → r < 65535 →
    (chunks B).map List.length =
        List.replicate k 65535 ++ (if r = 0 then [] else [r])
    ∧ (chunks B).flatten = B := by
  induction k with
  | zero =>
    intro B r hlen hr
    rcases eq_or_ne B [] with rfl | hne
    · have : r = 0 := by simp at hlen; omega
      subst this
      rw [chunks]
      simp
    · have hr0 : r ≠ 0 := by
        intro h
        subst h
        simp only [Nat.mul_zero, Nat.zero_add] at hlen
        exact hne (List.length_eq_zero.mp (by omega))
      rw [chunks, if_neg hne]
      have htake : B.take MAX_CHUNK_SIZE = B :=
        List.take_of_length_le (by simp [MAX_CHUNK_SIZE]; omega)
      have hdrop : B.drop MAX_CHUNK_SIZE = [] :=
        List.drop_eq_nil_of_le (by simp [MAX_CHUNK_SIZE]; omega)
      rw [htake, hdrop, chunks]
      simp [if_neg hr0]
      omega
  | succ k ih =>
    intro B r hlen hr
    have hne : B ≠ [] := by
      intro h
      rw [h] at hlen
      simp at hlen
      omega
    rw [chunks, if_neg hne]
    have hlen' : (B.drop MAX_CHUNK_SIZE).length = 65535 * k + r := by
      simp [List.length_drop, MAX_CHUNK_SIZE]
      omega
    have htakelen : (B.take MAX_CHUNK_SIZE).length = 65535 := by
      simp [List.length_take, MAX_CHUNK_SIZE]
      omega
    obtain ⟨ih₁, ih₂⟩ := ih (B.drop MAX_CHUNK_SIZE) r hlen' hr
    constructor
    · simp only [List.map_cons, htakelen, ih₁, List.replicate_succ,
        List.cons_append]
    · simp only [List.flatten_cons, ih₂, List.take_append_drop]

/-- C4: For every byte string `B` of length `65535 * k + r` with
`0 ≤ r < 65535`, framing `B` emits exactly `k` chunks of length 65535
followed by one chunk of length `r` if `r > 0`, each chunk prefixed by its
big-endian u16 length, followed by the two-byte terminator `0x00 0x00`; no
zero-length chunk is emitted before the terminator (for empty `B`: zero
data chunks, terminator only). -/
theorem c4_chunk_boundary (B : List Nat) (k r : Nat)
    (hlen : B.length = 65535 * k + r) (hr : r < 65535) :
    (chunks B).map List.length =
        List.replicate k 65535 ++ (if r = 0 then [] else [r])
    ∧ (chunks B).flatten = B
    ∧ ChunkStream.send B =
        ((chunks B).map (fun chunk => beBytes 2 chunk.length ++ chunk)).flatten
          ++ [0, 0]
    ∧ ∀ chunk ∈ chunks B, chunk.length ≠ 0 := by
  obtain ⟨h₁, h₂⟩ := chunks_spec k B r hlen hr
  refine ⟨h₁, h₂, rfl, ?_⟩
  intro chunk hc
  have hmem : chunk.length ∈ (chunks B).map List.length :=
    List.mem_map_of_mem _ hc
  rw [h₁] at hmem
  intro h0
  rw [h0] at hmem
  rcases List.mem_append.mp hmem with h | h
  · have := List.eq_of_mem_replicate h
    omega
  · by_cases hr0 : r = 0
    · rw [if_pos hr0] at h
      exact absurd h (List.not_mem_nil 0)
    · rw [if_neg hr0] at h
      have : (0 : Nat) = r := List.mem_singleton.mp h
      omega

/-- Witness for C4 at `B = [1, 2, 3]` (`k = 0`, `r = 3`). -/
theorem c4_chunk_boundary_witness :
    ([1, 2, 3] : List Nat).length = 65535 * 0 + 3 ∧ (3 : Nat) < 65535 ∧
      ((chunks [1, 2, 3]).map List.length =
          List.replicate 0 65535 ++ (if (3 : Nat) = 0 then [] else [3])
        ∧ (chunks [1, 2, 3]).flatten = [1, 2, 3]
        ∧ ChunkStream.send [1, 2, 3] =
            ((chunks [1, 2, 3]).map
              (fun chunk => beBytes 2 chunk.length ++ chunk)).flatten ++ [0, 0]
        ∧ ∀ chunk ∈ chunks [1, 2, 3], chunk.length ≠ 0) :=
  ⟨by decide, by decide, c4_chunk_boundary [1, 2, 3] 0 3 (by decide) (by decide)⟩

/-- Receiving the frame of a chunk sequence whose chunks are nonempty and at
most `MAX_CHUNK_SIZE` long returns the concatenated bodies and leaves the
bytes after the terminator unread. -/
theorem recvF_frame (cs : List (List Nat))
    (hcs : ∀ c ∈ cs, 1 ≤ c.length ∧ c.length ≤ 65535) :
    ∀ acc extra fuel, cs.length + 1 ≤ fuel →
      ChunkStream.recvF fuel acc
          ((cs.map (fun c => beBytes 2 c.length ++ c)).flatten ++ ([0, 0] ++ extra))
        = some (acc ++ cs.flatten, extra) := by
  induction cs with
  | nil =>
    intro acc extra fuel hf
    obtain ⟨f, rfl⟩ : ∃ f, fuel = f + 1 := ⟨fuel - 1, by omega⟩
    simp [ChunkStream.recvF]
  | cons c cs ih =>
    intro acc extra fuel hf
    obtain ⟨f, rfl⟩ : ∃ f, fuel = f + 1 := ⟨fuel - 1, by omega⟩
    simp only [List.length_cons] at hf
    obtain ⟨hc1, hc2⟩ := hcs c (List.mem_cons_self c cs)
    have hbe : beBytes 2 c.length = [c.length / 256, c.length % 256] := by
      have : c.length / 256 % 256 = c.length / 256 := by omega
      simp [beBytes, this]
    simp only [List.map_cons, List.flatten_cons, hbe, List.cons_append,
      List.append_assoc, List.nil_append]
    simp only [ChunkStream.recvF]
    have hsize : 256 * (c.length / 256) + c.length % 256 = c.length := by omega
    rw [hsize, if_neg (by omega), List.take_left, List.drop_left]
    have ih' := ih (fun x hx => hcs x (List.mem_cons_of_mem c hx)) (acc ++ c)
      extra f (by omega)
    simp only [List.cons_append, List.nil_append] at ih'
    rw [ih']
    simp

/-- C5: For every byte string `B`, receiving one framed message from the
exact byte sequence produced by sending `B` — reading length-prefixed chunks
until the zero-length terminator and concatenating their bodies — returns
`B` unchanged (and consumes the input exactly). -/
theorem c5_framer_roundtrip (B : List Nat) :
    ChunkStream.recv (ChunkStream.send B) = some (B, []) := by
  have hlen : B.length = 65535 * (B.length / 65535) + B.length % 65535 :=
    (Nat.div_add_mod B.length 65535).symm
  have hr : B.length % 65535 < 65535 := Nat.mod_lt _ (by norm_num)
  obtain ⟨h₁, h₂⟩ := chunks_spec (B.length / 65535) B (B.length % 65535) hlen hr
  have hcs : ∀ c ∈ chunks B, 1 ≤ c.length ∧ c.length ≤ 65535 := by
    intro c hc
    have hmem : c.length ∈ (chunks B).map List.length :=
      List.mem_map_of_mem _ hc
    rw [h₁] at hmem
    rcases List.mem_append.mp hmem with h | h
    · have := List.eq_of_mem_replicate h
      omega
    · by_cases hr0 : B.length % 65535 = 0
      · rw [if_pos hr0] at h
        exact absurd h (List.not_mem_nil _)
      · rw [if_neg hr0] at h
        have := List.mem_singleton.mp h
        omega

  have hcount : ∀ l : List (List Nat), (∀ x ∈ l, 1 ≤ x.length) →
      l.length ≤ l.flatten.length := by
    intro l
    induction l with
    | nil => intro _; simp
    | cons x xs ihx =>
      intro hx
      simp only [List.length_cons, List.flatten_cons, List.length_append]
      have h₃ := hx x (List.mem_cons_self x xs)
      have h₄ := ihx (fun y hy => hx y (List.mem_cons_of_mem x hy))
      omega
  have hfuel : (chunks B).length + 1 ≤ (ChunkStream.send B).length + 1 := by
    have h₃ : ((chunks B).map (fun c => beBytes 2 c.length ++ c)).length =
        (chunks B).length := List.length_map _ _
    have h₄ := hcount ((chunks B).map (fun c => beBytes 2 c.length ++ c))
      (by
        intro x hx
        obtain ⟨c, _, rfl⟩ := List.mem_map.mp hx
        simp only [List.length_append, beBytes_length]
        omega)
    rw [h₃] at h₄
    unfold ChunkStream.send
    simp only [List.length_append]
    omega
  have h := recvF_frame (chunks B) hcs [] [] ((ChunkStream.send B).length + 1)
    (by omega)
  rw [List.append_nil] at h
  unfold ChunkStream.recv
  unfold ChunkStream.send at h ⊢
  rw [h, List.nil_append, h₂]

/-! ## Bolt session (src/neo4j/src/bolt.rs) -/

/-- `Data` from the packstream crate: a record row of values. -/
inductive Data where
  | record (fields : List Value)

/-- `BoltSummary` (bolt.rs lines 378-383): the terminal summary kinds, each
carrying a metadata map. -/
inductive BoltSummary where
  | success (metadata : List (List Nat × Value))
  | ignored (metadata : List (List Nat × Value))
  | failure (metadata : List (List Nat × Value))

/-- `BoltResponse` (bolt.rs lines 394-399). -/
structure BoltResponse where
  detail : List Data
  summary : Option BoltSummary
  done : Bool

/-- `BoltResponse::new()`. -/
def BoltResponse.new : BoltResponse :=
  { detail := [], summary := none, done := false }

/-- `BoltResponse::done()`. -/
def BoltResponse.mkDone : BoltResponse :=
  { detail := [], summary := none, done := true }

/-- `BoltStream` (bolt.rs lines 71-78), without the socket handle: the
queued request byte strings, the pending-response FIFO, the count of pruned
responses, the cursor into the FIFO and the agreed protocol version. -/
structure BoltStream where
  requests : List (List Nat)
  responses : List BoltResponse
  responsesDone : Nat
  currentResponseIndex : Nat
  protocolVersion : Nat

/-- `BoltError` (bolt.rs lines 38-43); the `Socket` payload (an `io::Error`)
is irrelevant here. -/
inductive BoltError where
  | connect (msg : String)
  | handshake (msg : String)
  | socket

/-- The 20-byte handshake preamble `HANDSHAKE` (bolt.rs lines 17-23): the
magic `60 60 B0 17` and the four proposed versions `1, 0, 0, 0`. -/
def HANDSHAKE : List Nat :=
  [0x60, 0x60, 0xB0, 0x17,
   0x00, 0x00, 0x00, 0x01,
   0x00, 0x00, 0x00, 0x00,
   0x00, 0x00, 0x00, 0x00,
   0x00, 0x00, 0x00, 0x00]

/-- `BoltStream::connect` (bolt.rs lines 83-104), with the TCP interaction
abstracted: `tcpOk` is whether `TcpStream::connect` succeeded, `writeOk`
whether writing `HANDSHAKE` succeeded, and `readVersion` the big-endian u32
read back (`none` for a read error).  Whatever version is read — zero
included — is stored and a stream is returned; the code contains no check
of the agreed version. -/
def BoltStream.connect (tcpOk writeOk : Bool) (readVersion : Option Nat) :
    Except BoltError BoltStream :=
  if tcpOk then
    if writeOk then
      match readVersion with
      | some protocol_version =>
        .ok { requests := [], responses := [], responsesDone := 0,
              currentResponseIndex := 0, protocolVersion := protocol_version }
      | none => .error (.handshake "Error on read")
    else .error (.handshake "Error on write")
  else .error (.connect "Error on connect")

/-- C8 counterexample: a handshake reply decoding to version 0 is accepted:
`connect` returns `Ok` with a usable stream whose stored version is 0.  No
`HandshakeRejected` error exists in the code, refuting the claim that a
zero version makes `connect` fail. -/
theorem c8_counterexample_zero_version_accepted :
    BoltStream.connect true true (some 0) =
      .ok { requests := [], responses := [], responsesDone := 0,
            currentResponseIndex := 0, protocolVersion := 0 } := rfl

/-- C8 (amended): `connect` fails only when the TCP connect, the handshake
write, or the version read fails; the version read back — zero included —
is stored unchecked and a session is returned for it. -/
theorem c8_connect_accepts_any_version :
    (∀ v, BoltStream.connect true true (some v) =
      .ok { requests := [], responses := [], responsesDone := 0,
            currentResponseIndex := 0, protocolVersion := v })
    ∧ BoltStream.connect true true none = .error (.handshake "Error on read")
    ∧ BoltStream.connect true false none = .error (.handshake "Error on write")
    ∧ BoltStream.connect false true (some 1) = .error (.connect "Error on connect") :=
  ⟨fun _ => rfl, rfl, rfl, rfl⟩

/-! ### Response demultiplexing (`BoltStream::fetch`) -/

/-- One decoded server message: either a record datum or a terminal
summary. -/
inductive BoltEvent where
  | record (d : Data)
  | summary (s : BoltSummary)

def BoltEvent.isSummary : BoltEvent → Bool
  | .record _ => false
  | .summary _ => true

/-- The message-shape dispatch of `BoltStream::fetch` (bolt.rs lines
307-374): a `Structure` with signature `SUCCESS 0x70` / `IGNORED 0x7E` /
`FAILURE 0x7F` yields a summary carrying the first field's map (an empty
map when there are no fields), `RECORD 0x71` yields a record carrying the
first field's list; every `panic!` arm (non-`Structure` message, unknown
signature, non-map metadata, non-list data) is `none`. -/
def decodeMsg : Value → Option BoltEvent
  | .struct signature fields =>
    if signature = 0x70 then
      match fields with
      | [] => some (.summary (.success []))
      | .map metadata :: _ => some (.summary (.success metadata))
      | _ => none
    else if signature = 0x71 then
      match fields with
      | [] => some (.record (.record []))
      | .list data :: _ => some (.record (.record data))
      | _ => none
    else if signature = 0x7E then
      match fields with
      | [] => some (.summary (.ignored []))
      | .map metadata :: _ => some (.summary (.ignored metadata))
      | _ => none
    else if signature = 0x7F then
      match fields with
      | [] => some (.summary (.failure []))
      | .map metadata :: _ => some (.summary (.failure metadata))
      | _ => none
    else none
  | _ => none

/-- The state mutation of `BoltStream::fetch`: a record is pushed onto the
detail of the response at the cursor (cursor unchanged); a summary is
stored into the response at the cursor and the cursor advanced by one. -/
def BoltStream.applyEvent (st : BoltStream) (ev : BoltEvent) : BoltStream :=
  match ev with
  | .record d =>
    let r := st.responses.getD st.currentResponseIndex BoltResponse.new
    let r' := { r with detail := r.detail ++ [d] }
    { st with responses := st.responses.set st.currentResponseIndex r' }
  | .summary s =>
    let r := st.responses.getD st.currentResponseIndex BoltResponse.new
    let r' := { r with summary := some s }
    { st with
      responses := st.responses.set st.currentResponseIndex r',
      currentResponseIndex := st.currentResponseIndex + 1 }

/-- `BoltStream::fetch` (bolt.rs lines 304-375): decode one message (the
`msg` argument stands for the `Value` that `receive()` read from the wire)
and apply it to the response at the cursor.  `none` models the panics: the
indexing `self.responses[self.current_response_index]` when the cursor is
out of bounds, and every `panic!` arm of the message match (`decodeMsg`). -/
def BoltStream.fetch (st : BoltStream) (msg : Value) : Option BoltStream :=
  if st.currentResponseIndex < st.responses.length then
    match decodeMsg msg with
    | some ev => some (st.applyEvent ev)
    | none => none
  else none

/-- Processing a whole sequence of incoming messages, message by message. -/
def BoltStream.fetchAll (st : BoltStream) : List Value → Option BoltStream
  | [] => some st
  | m :: ms =>
    match st.fetch m with
    | some st' => st'.fetchAll ms
    | none => none

/-- The routing specification: processing events from cursor `c`, the
records and summary attributed to the absolute slot `k`.  Records go to the
slot at the current cursor; a summary completes the slot at the cursor and
advances it.  Hence slot `k` receives exactly the records arriving after
the `(k-c)`-th summary and before the `(k-c+1)`-th, in arrival order, and
its summary is the `(k-c+1)`-th summary — FIFO completion order. -/
def routedEv (c k : Nat) : List BoltEvent → List Data × Option BoltSummary
  | [] => ([], none)
  | .record d :: evs =>
    if c = k then
      (d :: (routedEv c k evs).1, (routedEv c k evs).2)
    else routedEv c k evs
  | .summary s :: evs =>
    if c = k then ([], some s)
    else routedEv (c + 1) k evs

/-- A summary routed to a slot overwrites its summary field; otherwise the
old value stays. -/
def orElseSummary : Option BoltSummary → Option BoltSummary → Option BoltSummary
  | some s, _ => some s
  | none, old => old

theorem routedEv_lt (evs : List BoltEvent) : ∀ c k, k < c →
    routedEv c k evs = ([], none) := by
  induction evs with
  | nil => intro c k _; rfl
  | cons ev evs ih =>
    intro c k hk
    cases ev with
    | record d => rw [routedEv, if_neg (by omega), ih c k hk]
    | summary s => rw [routedEv, if_neg (by omega), ih (c + 1) k (by omega)]

/-- `List.getD` over `List.set`. -/
theorem getD_set (l : List BoltResponse) (i j : Nat) (a d : BoltResponse)
    (hi : i < l.length) :
    (l.set i a).getD j d = if i = j then a else l.getD j d := by
  rcases eq_or_ne i j with rfl | hne
  · simp [List.getD_eq_getElem?_getD, List.getElem?_set_self, hi]
  · simp [List.getD_eq_getElem?_getD, List.getElem?_set_ne hne, hne]

set_option maxHeartbeats 1000000 in
/-- C3: For every sequence of incoming server messages, each decoded
message is applied to the pending response at the session's cursor: a
RECORD appends one record to that response's detail without advancing the
cursor, while SUCCESS, IGNORED and FAILURE store the summary in that
response and advance the cursor by exactly one.  Consequently summaries
complete pending responses in exactly the FIFO order the requests were
queued — the cursor advances by one per summary — and slot `k` receives
exactly the records routed to it between its predecessor's summary and its
own (`routedEv`), all buffered into slot `k` before any message is
attributed to slot `k + 1`. -/
theorem c3_fetch_fifo (msgs : List Value) : ∀ (st st' : BoltStream)
    (evs : List BoltEvent),
    msgs.mapM decodeMsg = some evs →
    st.fetchAll msgs = some st' →
    st'.requests = st.requests
    ∧ st'.protocolVersion = st.protocolVersion
    ∧ st'.responsesDone = st.responsesDone
    ∧ st'.currentResponseIndex =
        st.currentResponseIndex + (evs.filter BoltEvent.isSummary).length
    ∧ st'.responses.length = st.responses.length
    ∧ ∀ k,
        (st'.responses.getD k BoltResponse.new).detail =
            (st.responses.getD k BoltResponse.new).detail
              ++ (routedEv st.currentResponseIndex k evs).1
        ∧ (st'.responses.getD k BoltResponse.new).summary =
            orElseSummary (routedEv st.currentResponseIndex k evs).2
              (st.responses.getD k BoltResponse.new).summary
        ∧ (st'.responses.getD k BoltResponse.new).done =
            (st.responses.getD k BoltResponse.new).done := by
  induction msgs with
  | nil =>
    intro st st' evs hdec hrun
    simp only [List.mapM_nil, pure, Option.some.injEq] at hdec
    simp only [BoltStream.fetchAll, Option.some.injEq] at hrun
    subst hdec
    subst hrun
    refine ⟨rfl, rfl, rfl, by simp [List.filter], rfl, ?_⟩
    intro k
    simp [routedEv, orElseSummary]
  | cons m ms ih =>
    intro st st' evs hdec hrun
    rw [List.mapM_cons] at hdec
    cases hdm : decodeMsg m with
    | none => rw [hdm] at hdec; simp at hdec
    | some ev =>
      rw [hdm] at hdec
      cases hdms : ms.mapM decodeMsg with
      | none => rw [hdms] at hdec; simp at hdec
      | some evs' =>
        rw [hdms] at hdec
        simp only [Option.bind_eq_bind, Option.some_bind, pure,
          Option.some.injEq] at hdec
        subst hdec
        simp only [BoltStream.fetchAll] at hrun
        cases hfetch : st.fetch m with
        | none => rw [hfetch] at hrun; cases hrun
        | some st1 =>
          rw [hfetch] at hrun
          unfold BoltStream.fetch at hfetch
          rw [hdm] at hfetch
          split at hfetch
          case isFalse => cases hfetch
          case isTrue hidx =>
          simp only [Option.some.injEq] at hfetch
          subst hfetch
          obtain ⟨ihreq, ihver, ihdone, ihcur, ihlen, ihslot⟩ :=
            ih (st.applyEvent ev) st' evs' hdms hrun
          cases ev with
          | record d =>
            have happly : (st.applyEvent (.record d)).responses =
                st.responses.set st.currentResponseIndex
                  (let r := st.responses.getD st.currentResponseIndex
                    BoltResponse.new
                   { r with detail := r.detail ++ [d] }) := rfl
            have hcur1 : (st.applyEvent (.record d)).currentResponseIndex =
                st.currentResponseIndex := rfl
            have hlen1 : (st.applyEvent (.record d)).responses.length =
                st.responses.length := by rw [happly]; simp
            refine ⟨ihreq, ihver, ihdone, ?_, by omega, ?_⟩
            · rw [ihcur, hcur1]
              simp [List.filter, BoltEvent.isSummary]
            · intro k
              obtain ⟨ihd, ihs, ihdn⟩ := ihslot k
              have hget : (st.applyEvent (.record d)).responses.getD k
                  BoltResponse.new =
                    if st.currentResponseIndex = k then
                      (let r := st.responses.getD st.currentResponseIndex
                        BoltResponse.new
                       { r with detail := r.detail ++ [d] })
                    else st.responses.getD k BoltResponse.new := by
                rw [happly, getD_set _ _ _ _ _ hidx]
              rw [hget] at ihd ihs ihdn
              rw [hcur1] at ihd ihs
              by_cases hck : st.currentResponseIndex = k
              · subst hck
                rw [if_pos rfl] at ihd ihs ihdn
                refine ⟨?_, ?_, ?_⟩
                · rw [ihd]
                  simp [routedEv, List.append_assoc]
                · rw [ihs]
                  simp [routedEv]
                · rw [ihdn]
              · rw [if_neg hck] at ihd ihs ihdn
                rw [show routedEv st.currentResponseIndex k
                    (BoltEvent.record d :: evs') =
                    routedEv st.currentResponseIndex k evs' by
                  rw [routedEv, if_neg hck]]
                exact ⟨ihd, ihs, ihdn⟩
          | summary s =>
            have happly : (st.applyEvent (.summary s)).responses =
                st.responses.set st.currentResponseIndex
                  (let r := st.responses.getD st.currentResponseIndex
                    BoltResponse.new
                   { r with summary := some s }) := rfl
            have hcur1 : (st.applyEvent (.summary s)).currentResponseIndex =
                st.currentResponseIndex + 1 := rfl
            have hlen1 : (st.applyEvent (.summary s)).responses.length =
                st.responses.length := by rw [happly]; simp
            refine ⟨ihreq, ihver, ihdone, ?_, by omega, ?_⟩
            · rw [ihcur, hcur1]
              simp only [List.filter, BoltEvent.isSummary, List.length_cons]
              omega
            · intro k
              obtain ⟨ihd, ihs, ihdn⟩ := ihslot k
              have hget : (st.applyEvent (.summary s)).responses.getD k
                  BoltResponse.new =
                    if st.currentResponseIndex = k then
                      (let r := st.responses.getD st.currentResponseIndex
                        BoltResponse.new
                       { r with summary := some s })
                    else st.responses.getD k BoltResponse.new := by
                rw [happly, getD_set _ _ _ _ _ hidx]
              rw [hget] at ihd ihs ihdn
              rw [hcur1] at ihd ihs
              by_cases hck : st.currentResponseIndex = k
              · subst hck
                rw [if_pos rfl] at ihd ihs ihdn
                rw [routedEv_lt evs' (st.currentResponseIndex + 1)
                  st.currentResponseIndex (by omega)] at ihd ihs
                refine ⟨?_, ?_, ?_⟩
                · rw [ihd]
                  simp [routedEv]
                · rw [ihs]
                  simp [routedEv, orElseSummary]
                · rw [ihdn]
              · rw [if_neg hck] at ihd ihs ihdn
                rw [show routedEv st.currentResponseIndex k
                    (BoltEvent.summary s :: evs') =
                    routedEv (st.currentResponseIndex + 1) k evs' by
                  rw [routedEv, if_neg hck]]
                exact ⟨ihd, ihs, ihdn⟩

/-- A session with two pending responses, for the C3 witness. -/
def stC3 : BoltStream :=
  { requests := [], responses := [BoltResponse.new, BoltResponse.new],
    responsesDone := 0, currentResponseIndex := 0, protocolVersion := 1 }

/-- One record and two summaries from the server, for the C3 witness. -/
def msgsC3 : List Value :=
  [.struct 0x71 [.list [.integer 1]], .struct 0x70 [.map []], .struct 0x7E []]

/-- The decoded events of `msgsC3`. -/
def evsC3 : List BoltEvent :=
  [.record (.record [.integer 1]), .summary (.success []),
    .summary (.ignored [])]

/-- Witness for C3: processing a RECORD, a SUCCESS and an IGNORED from a
fresh two-slot session advances the cursor by exactly the two summaries. -/
theorem c3_fetch_fifo_witness :
    msgsC3.mapM decodeMsg = some evsC3 ∧
      (stC3.fetchAll msgsC3 =
        some ((stC3.applyEvent (.record (.record [.integer 1])) |>.applyEvent
          (.summary (.success []))).applyEvent (.summary (.ignored [])))) ∧
      ((stC3.applyEvent (.record (.record [.integer 1])) |>.applyEvent
          (.summary (.success []))).applyEvent
            (.summary (.ignored []))).currentResponseIndex =
        stC3.currentResponseIndex +
          (evsC3.filter BoltEvent.isSummary).length :=
  ⟨rfl, rfl,
    (c3_fetch_fifo msgsC3 stC3 _ evsC3 rfl rfl).2.2.2.1⟩

/-! ## Cypher session (src/neo4j/src/cypher.rs) -/

/-- `CypherStream` (cypher.rs lines 10-14): the Bolt stream, the server
version string and the session's current bookmark (Rust `String`s modelled
as UTF-8 bytes). -/
structure CypherStream where
  bolt : BoltStream
  server_version : Option (List Nat)
  bookmark : Option (List Nat)

/-- `HashMap::get` on a metadata map, modelled as association-list lookup
(the keys of a `HashMap` are unique). -/
def mapGet (metadata : List (List Nat × Value)) (key : List Nat) : Option Value :=
  match metadata with
  | [] => none
  | (k, v) :: rest => if k = key then some v else mapGet rest key

/-- The UTF-8 bytes of the metadata key `"bookmark"`. -/
def bookmarkKey : List Nat := [0x62, 0x6F, 0x6F, 0x6B, 0x6D, 0x61, 0x72, 0x6B]

/-- `CypherStream::commit_transaction` (cypher.rs lines 83-112), with the
wire interaction abstracted: `summary` stands for what
`fetch_summary(body)` returned for the COMMIT response, `fetchedFailure`
for what `fetch_failure(body)` would return (consulted only on the
`Ignored` path).  The bookmark is the optional `String` under metadata key
`"bookmark"` of a `Success` summary; it is stored as the session's current
bookmark (unconditionally overwriting the previous one), and the summary
(or the buffered failure, for `Ignored`) is returned. -/
def CypherStream.commit_transaction (cs : CypherStream)
    (summary : Option BoltSummary) (fetchedFailure : Option BoltSummary) :
    CypherStream × Option BoltSummary :=
  let bookmark : Option (List Nat) :=
    match summary with
    | some (.success metadata) =>
      match mapGet metadata bookmarkKey with
      | some (.string b) => some b
      | _ => none
    | _ => none
  let ret : Option BoltSummary :=
    match summary with
    | some s =>
      match s with
      | .ignored _ => fetchedFailure
      | _ => some s
    | none => none
  ({ cs with bookmark := bookmark }, ret)

/-- C9: For every `commit_transaction` call whose fetched COMMIT summary is
Success with a String value under metadata key `"bookmark"`, the session's
stored current bookmark after the call equals that string; when the
Success metadata has no `"bookmark"` string the stored bookmark is
`none`. -/
theorem c9_commit_bookmark (cs : CypherStream) (ff : Option BoltSummary)
    (metadata : List (List Nat × Value)) :
    (∀ b, mapGet metadata bookmarkKey = some (.string b) →
      (cs.commit_transaction (some (.success metadata)) ff).1.bookmark = some b)
    ∧ ((∀ b, mapGet metadata bookmarkKey ≠ some (.string b)) →
      (cs.commit_transaction (some (.success metadata)) ff).1.bookmark = none) := by
  constructor
  · intro b hb
    simp [CypherStream.commit_transaction, hb]
  · intro hb
    cases hm : mapGet metadata bookmarkKey with
    | none => simp [CypherStream.commit_transaction, hm]
    | some v =>
      cases v with
      | string b => exact absurd hm (hb b)
      | null => simp [CypherStream.commit_transaction, hm]
      | boolean x => simp [CypherStream.commit_transaction, hm]
      | integer x => simp [CypherStream.commit_transaction, hm]
      | float x => simp [CypherStream.commit_transaction, hm]
      | list items => simp [CypherStream.commit_transaction, hm]
      | map entries => simp [CypherStream.commit_transaction, hm]
      | struct sg fs => simp [CypherStream.commit_transaction, hm]

/-- A fresh Bolt stream for the C9 witness. -/
def boltC9 : BoltStream :=
  { requests := [], responses := [], responsesDone := 0,
    currentResponseIndex := 0, protocolVersion := 1 }

/-- A fresh session for the C9 witness. -/
def csC9 : CypherStream :=
  { bolt := boltC9, server_version := none, bookmark := none }

/-- Witness for C9: a Success summary carrying bookmark `"b1"` stores it;
a Success summary with empty metadata stores `none`. -/
theorem c9_commit_bookmark_witness :
    mapGet [(bookmarkKey, Value.string [0x62, 0x31])] bookmarkKey =
        some (Value.string [0x62, 0x31])
    ∧ (csC9.commit_transaction
        (some (.success [(bookmarkKey, Value.string [0x62, 0x31])]))
        none).1.bookmark = some [0x62, 0x31]
    ∧ (csC9.commit_transaction (some (.success [])) none).1.bookmark = none :=
  ⟨rfl,
    (c9_commit_bookmark csC9 none [(bookmarkKey, Value.string [0x62, 0x31])]).1
      [0x62, 0x31] rfl,
    (c9_commit_bookmark csC9 none []).2
      (by intro b h; simp [mapGet] at h)⟩

/-! ## Transactions (src/neo4j/src/lib.rs) -/

/-- The session-level operations a `Neo4jTransaction` method invokes on the
underlying `CypherStream`. -/
inductive SessionOp where
  | beginTransaction
  | commitTransaction
  | rollbackTransaction
deriving DecidableEq

/-- `Neo4jTransaction` (lib.rs line 46): `pub struct
Neo4jTransaction<'a>(&'a mut Neo4jDB, bool)`.  Only the second tuple field
— the completion flag `self.1` — matters for the drop behaviour. -/
structure Neo4jTransaction where
  completed : Bool

/-- `Neo4jTransaction::new` (lib.rs lines 49-53): the flag starts `false`;
`_start` issues `begin_transaction` on the session. -/
def Neo4jTransaction.new : Neo4jTransaction × List SessionOp :=
  ({ completed := false }, [.beginTransaction])

/-- `commit(mut self)` (lib.rs lines 82-85): sets `self.1 = true`, then
`_commit` issues `commit_transaction`. -/
def Neo4jTransaction.commit (t : Neo4jTransaction) :
    Neo4jTransaction × List SessionOp :=
  ({ t with completed := true }, [.commitTransaction])

/-- `rollback(mut self)` (lib.rs lines 87-90): sets `self.1 = true`, then
`_rollback` issues `rollback_transaction`. -/
def Neo4jTransaction.rollback (t : Neo4jTransaction) :
    Neo4jTransaction × List SessionOp :=
  ({ t with completed := true }, [.rollbackTransaction])

/-- `commit_and_refresh` (lib.rs lines 74-80): `_commit`, then `_start`
again when the commit succeeded; the completion flag is not touched. -/
def Neo4jTransaction.commit_and_refresh (t : Neo4jTransaction)
    (commitOk : Bool) : Neo4jTransaction × List SessionOp :=
  (t, if commitOk then [.commitTransaction, .beginTransaction]
      else [.commitTransaction])

/-- `Drop for Neo4jTransaction` (lib.rs lines 103-109): `if !self.1 {
self._rollback() }` — the destructor invokes `rollback_transaction` exactly
when the completion flag is still false. -/
def Neo4jTransaction.drop (t : Neo4jTransaction) : List SessionOp :=
  if t.completed then [] else [.rollbackTransaction]

/-- C10: a `Neo4jTransaction` dropped while its completion flag is still
false — in particular one freshly created, on which neither `commit()` nor
`rollback()` was called — has its destructor invoke `rollback_transaction`
on the underlying session; once `commit()` or `rollback()` has been called
(they set the flag before delegating), the destructor performs no further
session operation.  `commit_and_refresh` leaves the flag, and hence the
drop behaviour, unchanged. -/
theorem c10_drop_rolls_back (t : Neo4jTransaction) :
    (t.completed = false → t.drop = [.rollbackTransaction])
    ∧ (t.completed = true → t.drop = [])
    ∧ Neo4jTransaction.new.1.drop = [.rollbackTransaction]
    ∧ t.commit.1.drop = []
    ∧ t.rollback.1.drop = []
    ∧ ∀ ok, (t.commit_and_refresh ok).1.drop = t.drop := by
  refine ⟨?_, ?_, rfl, rfl, rfl, fun _ => rfl⟩
  · intro h
    simp [Neo4jTransaction.drop, h]
  · intro h
    simp [Neo4jTransaction.drop, h]

/-- Witness for C10 at a fresh transaction (flag `false`). -/
theorem c10_drop_rolls_back_witness :
    Neo4jTransaction.new.1.completed = false ∧
      Neo4jTransaction.new.1.drop = [SessionOp.rollbackTransaction] :=
  ⟨rfl, (c10_drop_rolls_back Neo4jTransaction.new.1).1 rfl⟩

end RustyBolt
